import Mathlib

/-!
# Verification of the PSO (particle swarm optimisation) implementation

Shallow embedding of `PSO.py`.  Python floats are modelled by `ℚ`; the
process-wide numpy random generator is modelled by explicit draw streams
(`RandSource`); `float('inf')` is modelled by `none : Option ℚ`.  The
real-valued sigmoid `1/(1+exp(-x))` of the source is kept abstract as a
function parameter `sig`, since the code only ever compares its value with a
fresh uniform draw.
-/

namespace PSOModel

/-- The `params` dictionary of `PSO.py`: each key either present (`some`) or
absent (`none`).  Missing keys read after defaulting model Python
`KeyError`s. -/
structure Params where
  maxit : Option ℕ := none
  n_part : Option ℕ := none
  w : Option ℚ := none
  wdamp : Option ℚ := none
  c1 : Option ℚ := none
  c2 : Option ℚ := none
  con : Option ℚ := none
  display_info : Option ℕ := none
  early_stopping : Option ℕ := none
  early_stopping_rounds : Option ℕ := none
  BPSO : Option ℕ := none
  velocity_limit_scale : Option ℚ := none
deriving DecidableEq

/-- `default_PSO_params` (PSO.py lines 9-45), translated key by key in source
order.  Note that `con` is only assigned when it is absent AND `wdamp ≠ 1`
AND `w ≠ 1` (line 30); there is no `else` branch assigning `con` otherwise.
Note also that the `velocity_limit_scale` assignment (lines 40-43) is an
`if`/`elif`: the `elif params['BPSO'] == 1` branch does not test for key
presence, so it overwrites a caller-supplied value. -/
def default_PSO_params (p : Params) : Params :=
  let maxit := p.maxit.getD 30
  let n_part := p.n_part.getD 15
  let w := p.w.getD 1
  let wdamp := p.wdamp.getD 1
  let c1 := p.c1.getD (41/20)
  let c2 := p.c2.getD (41/20)
  let con : Option ℚ :=
    match p.con with
    | some v => some v
    | none => if wdamp ≠ 1 ∧ w ≠ 1 then some (7298437881283576/10000000000000000) else none
  let display_info := p.display_info.getD 1
  let early_stopping := p.early_stopping.getD 0
  let early_stopping_rounds := p.early_stopping_rounds.getD 10
  let BPSO := p.BPSO.getD 0
  let velocity_limit_scale : Option ℚ :=
    if p.velocity_limit_scale.isNone ∧ BPSO = 0 then some (1/5)
    else if BPSO = 1 then some 1
    else p.velocity_limit_scale
  { maxit := some maxit, n_part := some n_part, w := some w, wdamp := some wdamp,
    c1 := some c1, c2 := some c2, con := con, display_info := some display_info,
    early_stopping := some early_stopping,
    early_stopping_rounds := some early_stopping_rounds,
    BPSO := some BPSO, velocity_limit_scale := velocity_limit_scale }

/-- A particle (PSO.py lines 48-53).  The scalar `0` placeholders of
`__init__` are modelled by empty lists (they are overwritten by
`initial_position` before any use); `pbest_value` starts at `float('inf')`,
modelled by `none`. -/
structure Particle where
  position : List ℚ
  velocity : List ℚ
  pbest_position : List ℚ
  pbest_value : Option ℚ
deriving DecidableEq

/-- `c < b` where `b` may be `float('inf')` (`none`). -/
def ltOpt (c : ℚ) : Option ℚ → Bool
  | none => true
  | some b => c < b

/-- `a ≤ b` on `Option ℚ` with `none = float('inf')`. -/
def leOpt : Option ℚ → Option ℚ → Bool
  | _, none => true
  | none, some _ => false
  | some a, some b => a ≤ b

/-- `np.random.uniform(low=lo, high=hi, size=[1, n])[0]`: one sample of
length `n`, component `i` being `lo[i] + u[i] * (hi[i] - lo[i])` for a fresh
uniform draw `u[i] ∈ [0,1)`.  A length-1 bound broadcasts (numpy uses its
single entry for every component); `np_uniform_valid` below captures when
the call is well-shaped at all. -/
def np_uniform (lo hi : List ℚ) (n : ℕ) (u : List ℚ) : List ℚ :=
  (List.range n).map (fun i =>
    let l := lo.getD (if lo.length = 1 then 0 else i) 0
    let h := hi.getD (if hi.length = 1 then 0 else i) 0
    l + u.getD i 0 * (h - l))

/-- Shape check of `np.random.uniform(low=lo, high=hi, size=[1, n])`: each
bound array must have length `n` or broadcast from length 1, else numpy
raises `ValueError`. -/
def np_uniform_valid (lo hi : List ℚ) (n : ℕ) : Bool :=
  (decide (lo.length = n) || decide (lo.length = 1))
    && (decide (hi.length = n) || decide (hi.length = 1))

/-- `np.random.uniform(low=0, high=1, size=[1, n])[0]`: the first `n` fresh
uniform `[0,1)` draws themselves. -/
def np_uniform01 (n : ℕ) (u : List ℚ) : List ℚ := u.take n

/-- `Particle.initial_position` (PSO.py lines 55-61): draws `position`
(uniform in the box, or uniform `[0,1)` when `BPSO` is truthy), aliases
`pbest_position` to it, and draws `velocity` uniform in the box.  `up`/`uv`
are the underlying `[0,1)` draw lists for position and velocity. -/
def Particle.initial_position (p : Particle) (varmin varmax : List ℚ) (BPSO : ℕ)
    (up uv : List ℚ) : Particle :=
  let pos := if BPSO = 0 then np_uniform varmin varmax varmin.length up
             else np_uniform01 varmin.length up
  { p with position := pos, pbest_position := pos,
           velocity := np_uniform varmin varmax varmin.length uv }

/-- The velocity formula of PSO.py lines 64-66, per dimension, with the two
scalar draws `r1`, `r2` shared across all dimensions. -/
def vel_formula (con w c1 c2 r1 r2 : ℚ) : List ℚ → List ℚ → List ℚ → List ℚ → List ℚ
  | v :: vs, pb :: pbs, x :: xs, g :: gs =>
      (con * ((w * v) + (c1 * r1 * (pb - x)) + (c2 * r2 * (g - x))))
        :: vel_formula con w c1 c2 r1 r2 vs pbs xs gs
  | _, _, _, _ => []

/-- `Particle.update_velocity` (PSO.py lines 63-69): the constriction/inertia
formula with one scalar `r1 = np.random.rand()` and one scalar `r2`, then the
elementwise velocity limits `np.max([v, min_velocity], axis=0)` and
`np.min([v, max_velocity], axis=0)`. -/
def Particle.update_velocity (p : Particle) (con w c1 c2 r1 r2 : ℚ)
    (gbest_position min_velocity max_velocity : List ℚ) : Particle :=
  let v1 := vel_formula con w c1 c2 r1 r2 p.velocity p.pbest_position p.position gbest_position
  let v2 := List.zipWith max v1 min_velocity
  let v3 := List.zipWith min v2 max_velocity
  { p with velocity := v3 }

/-- `Particle.update_position` (PSO.py lines 71-79).  Continuous mode: add
velocity then clamp elementwise into the box.  Binary mode: component `i`
becomes `1` if a fresh uniform draw `bin[i]` is `< sig(velocity[i])`, else
`0`; `sig` abstracts the source's real-valued `sigmoid`. -/
def Particle.update_position (p : Particle) (varmin varmax : List ℚ) (BPSO : ℕ)
    (sig : ℚ → ℚ) (bin : List ℚ) : Particle :=
  if BPSO = 0 then
    let s1 := List.zipWith (· + ·) p.position p.velocity
    let s2 := List.zipWith max s1 varmin
    let s3 := List.zipWith min s2 varmax
    { p with position := s3 }
  else
    let sig_velocity := p.velocity.map sig
    let pos := (List.range sig_velocity.length).map
      (fun i => if bin.getD i 0 < sig_velocity.getD i 0 then (1 : ℚ) else 0)
    { p with position := pos }

/-- The `problem` dictionary: cost function (with the variadic `args` already
folded in) and the box bounds. -/
structure Problem where
  cost_function : List ℚ → ℚ
  varmin : List ℚ
  varmax : List ℚ

/-- Explicit replacement for the process-wide numpy generator: `[0,1)` draw
streams for initial positions/velocities (per particle index) and for the
per-iteration, per-particle scalars `r1`, `r2` and binary-mode draws. -/
structure RandSource where
  initPos : ℕ → List ℚ
  initVel : ℕ → List ℚ
  r1 : ℕ → ℕ → ℚ
  r2 : ℕ → ℕ → ℚ
  bin : ℕ → ℕ → List ℚ

/-- Errors the Python code can raise on the modelled paths: a `KeyError`
reading a `params` key that defaulting never assigned, and the numpy
`ValueError` from an elementwise operation on arrays of mismatched shape. -/
inductive PSOErr where
  | keyError (k : String)
  | valueError
deriving DecidableEq

/-- numpy `varmax - varmin` (PSO.py line 164): elementwise difference with
numpy broadcasting — equal lengths subtract componentwise, a length-1
operand broadcasts against the other, and any other mismatch raises
`ValueError` (`none`). -/
def npSub (a b : List ℚ) : Option (List ℚ) :=
  if a.length = b.length then some (List.zipWith (· - ·) a b)
  else if a.length = 1 then some (b.map (fun x => a.getD 0 0 - x))
  else if b.length = 1 then some (a.map (fun x => x - b.getD 0 0))
  else none

/-- The fully-resolved configuration of one PSO run (PSO.py lines 148-165),
after defaulting and computation of the velocity limits. -/
structure Cfg where
  cost : List ℚ → ℚ
  varmin : List ℚ
  varmax : List ℚ
  con : ℚ
  w0 : ℚ
  wdamp : ℚ
  c1 : ℚ
  c2 : ℚ
  min_velocity : List ℚ
  max_velocity : List ℚ
  BPSO : ℕ
  early_stopping : ℕ
  rounds : ℕ
  maxit : ℕ
  n_part : ℕ
  sig : ℚ → ℚ
  rng : RandSource

/-- The mutable run state of the main loop: the particle list, global best,
current inertia weight, and the `best_costs` array (entries `Option ℚ`, with
`none = float('inf')`; `np.zeros` initialises them to `some 0`).
`completed` counts completed loop iterations (model instrumentation only; it
does not influence the dynamics). -/
structure SwarmState where
  particles : List Particle
  gbest_value : Option ℚ
  gbest_position : List ℚ
  w : ℚ
  best_costs : List (Option ℚ)
  completed : ℕ
deriving DecidableEq

/-- The best-keeping part of the inner loop body (PSO.py lines 196-202):
evaluate the cost at the (already moved) particle's position; on personal
improvement update `pbest_value`/`pbest_position`, and on global improvement
return the new global best (value, position). -/
def best_update (cost : List ℚ → ℚ) (gb : Option ℚ × List ℚ) (p : Particle) :
    Particle × (Option ℚ × List ℚ) :=
  let c := cost p.position
  if ltOpt c p.pbest_value then
    let p3 := { p with pbest_value := some c, pbest_position := p.position }
    if ltOpt c gb.1 then (p3, (some c, p3.pbest_position)) else (p3, gb)
  else (p, gb)

/-- One particle's turn in the inner loop (PSO.py lines 188-202): update
velocity, update position, evaluate the cost, and update the personal and
global bests.  Returns the updated particle and global best. -/
def particle_step (cfg : Cfg) (w : ℚ) (it idx : ℕ) (gb : Option ℚ × List ℚ)
    (p : Particle) : Particle × (Option ℚ × List ℚ) :=
  let p1 := p.update_velocity cfg.con w cfg.c1 cfg.c2 (cfg.rng.r1 it idx) (cfg.rng.r2 it idx)
      gb.2 cfg.min_velocity cfg.max_velocity
  let p2 := p1.update_position cfg.varmin cfg.varmax cfg.BPSO cfg.sig (cfg.rng.bin it idx)
  best_update cfg.cost gb p2

/-- The inner `for particle in particles_vector` loop of one iteration. -/
def particles_pass (cfg : Cfg) (w : ℚ) (it : ℕ) :
    ℕ → (Option ℚ × List ℚ) → List Particle → List Particle × (Option ℚ × List ℚ)
  | _, gb, [] => ([], gb)
  | idx, gb, p :: rest =>
      let r := particle_step cfg w it idx gb p
      let r' := particles_pass cfg w it (idx + 1) r.2 rest
      (r.1 :: r'.1, r'.2)

/-- One iteration of the main loop (PSO.py lines 186-209, the
`examine_particles` diagnostics aside, which do not affect the run state):
the particle pass, `best_costs[it+1] = gbest_value`, and the inertia decay
`w = w * wdamp`. -/
def one_iteration (cfg : Cfg) (it : ℕ) (st : SwarmState) : SwarmState :=
  let r := particles_pass cfg st.w it 0 (st.gbest_value, st.gbest_position) st.particles
  { particles := r.1
    gbest_value := r.2.1
    gbest_position := r.2.2
    w := st.w * cfg.wdamp
    best_costs := st.best_costs.set (it + 1) r.2.1
    completed := st.completed + 1 }

/-- `|a - b| < 0.0001` on `best_costs` entries; any `float('inf')` operand
makes the comparison false (inf/nan arithmetic). -/
def absDiffLt : Option ℚ → Option ℚ → Bool
  | some a, some b => |a - b| < 1/10000
  | _, _ => false

/-- The early-stopping test of PSO.py lines 211-212, evaluated after the
iteration's bookkeeping. -/
def stop_check (cfg : Cfg) (it : ℕ) (st : SwarmState) : Bool :=
  (cfg.early_stopping != 0) && decide (cfg.rounds < it) &&
    absDiffLt (st.best_costs.getD (it + 1) none) (st.best_costs.getD (it + 1 - cfg.rounds) none)

/-- The main loop, fuelled by the remaining iteration count: run iteration
`it`, then return immediately if the early-stopping test fires (PSO.py line
218), else continue. -/
def run_iters (cfg : Cfg) : ℕ → ℕ → SwarmState → SwarmState
  | _, 0, st => st
  | it, fuel + 1, st =>
      let st' := one_iteration cfg it st
      if stop_check cfg it st' then st' else run_iters cfg (it + 1) fuel st'

/-- Building one initial particle (PSO.py lines 168, 174-177): construct,
place via `initial_position`, re-alias `pbest_position`, and seed
`pbest_value` with the cost at the initial position. -/
def make_particle (cost : List ℚ → ℚ) (varmin varmax : List ℚ) (BPSO : ℕ)
    (up uv : List ℚ) : Particle :=
  let p1 := Particle.initial_position ⟨[], [], [], none⟩ varmin varmax BPSO up uv
  { p1 with pbest_position := p1.position, pbest_value := some (cost p1.position) }

/-- The initialisation loop over `n` particles (PSO.py lines 174-180),
threading the global best from `(inf, [])`. -/
def init_particles (cfg : Cfg) :
    ℕ → (Option ℚ × List ℚ) → ℕ → List Particle × (Option ℚ × List ℚ)
  | _, gb, 0 => ([], gb)
  | idx, gb, n + 1 =>
      let p := make_particle cfg.cost cfg.varmin cfg.varmax cfg.BPSO
          (cfg.rng.initPos idx) (cfg.rng.initVel idx)
      let c := cfg.cost p.position
      let gb' := if ltOpt c gb.1 then (some c, p.pbest_position) else gb
      let r := init_particles cfg (idx + 1) gb' n
      (p :: r.1, r.2)

/-- The state just before the main loop (PSO.py lines 171-183):
`gbest_value = inf`, `gbest_position = []`, `best_costs = np.zeros(maxit+1)`
with `best_costs[0] = gbest_value`. -/
def init_state (cfg : Cfg) : SwarmState :=
  let r := init_particles cfg 0 (none, []) cfg.n_part
  { particles := r.1
    gbest_value := r.2.1
    gbest_position := r.2.2
    w := cfg.w0
    best_costs := (List.replicate (cfg.maxit + 1) (some 0)).set 0 r.2.1
    completed := 0 }

/-- Resolving the run configuration (PSO.py lines 148-165), in source order:
reading `params['con']` (line 161) raises `KeyError` when defaulting left it
unassigned; likewise `params['velocity_limit_scale']`, read at line 164
before the subtraction `varmax - varmin`, which raises `ValueError` on
mismatched shapes.  All other keys are unconditionally assigned by
defaulting, so their reads are modelled with `getD` at the default value. -/
def build_cfg (problem : Problem) (params0 : Params) (rng : RandSource)
    (sig : ℚ → ℚ) : Except PSOErr Cfg :=
  let params := default_PSO_params params0
  match params.con with
  | none => .error (.keyError "con")
  | some con =>
    match params.velocity_limit_scale with
    | none => .error (.keyError "velocity_limit_scale")
    | some vls =>
      match npSub problem.varmax problem.varmin with
      | none => .error .valueError
      | some range =>
        let max_velocity := range.map (fun x => vls * x)
        .ok { cost := problem.cost_function
              varmin := problem.varmin
              varmax := problem.varmax
              con := con
              w0 := params.w.getD 1
              wdamp := params.wdamp.getD 1
              c1 := params.c1.getD (41/20)
              c2 := params.c2.getD (41/20)
              min_velocity := max_velocity.map (fun x => -x)
              max_velocity := max_velocity
              BPSO := params.BPSO.getD 0
              early_stopping := params.early_stopping.getD 0
              rounds := params.early_stopping_rounds.getD 10
              maxit := params.maxit.getD 30
              n_part := params.n_part.getD 15
              sig := sig
              rng := rng }

/-- `PSO` (PSO.py lines 95-223): resolve the configuration, initialise the
swarm, run the main loop.  When the bound arrays do not broadcast to the
sample size, the first `initial_position` call (PSO.py lines 57/61, drawing
with `low=varmin, high=varmax, size=[1, len(varmin)]`) raises `ValueError` —
modelled here by the `np_uniform_valid` guard, which is only reached when at
least one particle is initialised.  The final `SwarmState` carries the
returned triple `(gbest_value, gbest_position, best_costs)` as its fields. -/
def PSO (problem : Problem) (params0 : Params) (rng : RandSource)
    (sig : ℚ → ℚ) : Except PSOErr SwarmState :=
  match build_cfg problem params0 rng sig with
  | .error e => .error e
  | .ok cfg =>
    if cfg.n_part != 0 && !np_uniform_valid cfg.varmin cfg.varmax cfg.varmin.length
    then .error .valueError
    else .ok (run_iters cfg 0 cfg.maxit (init_state cfg))

/-- `true` on the error case. -/
def isError : Except PSOErr SwarmState → Bool
  | .error _ => true
  | .ok _ => false

/-- An all-zero draw source, for concrete runs. -/
def zeroRng : RandSource := ⟨fun _ => [], fun _ => [], fun _ _ => 0, fun _ _ => 0, fun _ _ => []⟩

/-! ## Order lemmas for `Option ℚ` with `none = float('inf')` -/

theorem leOpt_refl (a : Option ℚ) : leOpt a a = true := by
  cases a <;> simp [leOpt]

theorem leOpt_trans {a b c : Option ℚ} (h1 : leOpt a b = true) (h2 : leOpt b c = true) :
    leOpt a c = true := by
  cases a <;> cases b <;> cases c <;> simp_all [leOpt]
  exact le_trans h1 h2

theorem ltOpt_leOpt {c : ℚ} {b : Option ℚ} (h : ltOpt c b = true) : leOpt (some c) b = true := by
  cases b <;> simp_all [ltOpt, leOpt]
  exact le_of_lt h

theorem not_ltOpt_leOpt {c : ℚ} {b : Option ℚ} (h : ltOpt c b = false) :
    leOpt b (some c) = true := by
  cases b <;> simp_all [ltOpt, leOpt]

theorem leOpt_of_ltOpt_leOpt {c : ℚ} {b d : Option ℚ} (h1 : ltOpt c b = true)
    (h2 : leOpt b d = true) : leOpt (some c) d = true := by
  cases b <;> cases d <;> simp_all [ltOpt, leOpt]
  exact le_of_lt (lt_of_lt_of_le h1 h2)

/-! ## C1 -/

/-- C1: the claim says that when the caller omits `con` and the
`wdamp ≠ 1 ∧ w ≠ 1` condition fails, the run proceeds with constriction
factor 1.  In the code, `default_PSO_params` simply never assigns `'con'` in
that case, so `con = params['con']` (PSO.py line 161) raises `KeyError`: a
run whose params mapping lacks `con`, `w` and `wdamp` crashes instead of
proceeding. -/
theorem C1_con_keyerror (problem : Problem) (params0 : Params) (rng : RandSource)
    (sig : ℚ → ℚ) (hcon : params0.con = none) (hw : params0.w = none)
    (hwd : params0.wdamp = none) :
    PSO problem params0 rng sig = .error (.keyError "con") := by
  unfold PSO build_cfg default_PSO_params
  simp [hcon, hw, hwd, Except.map]

/-- C1 witness: the concrete failing input — any problem with params `{}`. -/
theorem C1_con_keyerror_witness :
    PSO ⟨fun _ => 0, [0], [1]⟩ {} zeroRng (fun x => x) = .error (.keyError "con") :=
  C1_con_keyerror _ _ _ _ rfl rfl rfl

/-! ## C2 -/

/-- C2 counterexample: the caller supplies `velocity_limit_scale = 1/2`
together with `BPSO = 1`; the `elif params['BPSO'] == 1` branch (PSO.py line
42) overwrites the supplied value with 1, and the run's `max_velocity` is
`1 * (varmax - varmin) = [1]`, not the `1/2 * (1 - 0) = 1/2` the claim
requires. -/
theorem C2_vls_clobbered_cex :
    (build_cfg ⟨fun _ => 0, [0], [1]⟩
        { con := some 1, BPSO := some 1, velocity_limit_scale := some (1/2) }
        zeroRng (fun x => x)).map Cfg.max_velocity = .ok [1]
    ∧ ((1 : ℚ)/2 * (1 - 0) ≠ 1) := by
  constructor
  · show Except.ok [(1 : ℚ) * (1 - 0)] = Except.ok [1]
    norm_num
  · norm_num

/-- C2 amended: defaulting assigns `velocity_limit_scale` only if absent when
`BPSO ≠ 1` (0.2 for `BPSO = 0`), but when `BPSO = 1` it unconditionally
overwrites the key with 1; a caller-supplied value is therefore the one used
to compute `max_velocity` only when the caller's `BPSO` is not 1. -/
theorem C2_vls_supplied_used (problem : Problem) (params0 : Params) (rng : RandSource)
    (sig : ℚ → ℚ) (v : ℚ)
    (hv : params0.velocity_limit_scale = some v) (hb : params0.BPSO ≠ some 1)
    (hcon : (default_PSO_params params0).con ≠ none)
    (hlen : problem.varmax.length = problem.varmin.length) :
    ((build_cfg problem params0 rng sig).map Cfg.max_velocity
      = .ok ((List.zipWith (fun a b => a - b) problem.varmax problem.varmin).map
          (fun x => v * x)))
    ∧ (∀ q : Params, q.velocity_limit_scale = none → q.BPSO.getD 0 = 0 →
        (default_PSO_params q).velocity_limit_scale = some (1/5))
    ∧ (∀ q : Params, q.BPSO.getD 0 = 1 →
        (default_PSO_params q).velocity_limit_scale = some 1) := by
  refine ⟨?_, ?_, ?_⟩
  · have hvls : (default_PSO_params params0).velocity_limit_scale = some v := by
      cases hB : params0.BPSO with
      | none => simp [default_PSO_params, hv, hB]
      | some b =>
        have hb1 : b ≠ 1 := fun h => hb (by rw [hB, h])
        simp [default_PSO_params, hv, hB, hb1]
    rcases hc : (default_PSO_params params0).con with _ | c
    · exact absurd hc hcon
    · simp [build_cfg, hc, hvls, npSub, hlen, Except.map]
  · intro q hq1 hq2
    simp [default_PSO_params, hq1, hq2]
  · intro q hq
    simp [default_PSO_params, hq]

/-- C2 witness: with `BPSO` left absent, a supplied scale of 1/2 is used. -/
theorem C2_vls_supplied_used_witness :
    (build_cfg ⟨fun _ => 0, [0], [1]⟩ { con := some 1, velocity_limit_scale := some (1/2) }
        zeroRng (fun x => x)).map Cfg.max_velocity
      = .ok ((List.zipWith (fun a b => a - b) [1] [0]).map (fun x => (1 : ℚ)/2 * x)) :=
  (C2_vls_supplied_used _ _ _ _ (1/2) rfl (by decide) (by decide) rfl).1

/-! ## C3 -/

/-- Every element of the binary-mode position map is 0 or 1. -/
theorem binary_pos_mem (sv bin : List ℚ) (x : ℚ)
    (hx : x ∈ (List.range sv.length).map
      (fun i => if bin.getD i 0 < sv.getD i 0 then (1 : ℚ) else 0)) :
    x = 0 ∨ x = 1 := by
  rcases List.mem_map.mp hx with ⟨i, -, rfl⟩
  by_cases hc : bin.getD i 0 < sv.getD i 0
  · right; rw [if_pos hc]
  · left; rw [if_neg hc]

/-- Elementwise clamping `min (max s lo) hi` lands in `[lo, hi]`. -/
theorem getD_clamp (s lo hi : List ℚ) (i : ℕ)
    (h : i < (List.zipWith min (List.zipWith max s lo) hi).length)
    (hlh : lo.getD i 0 ≤ hi.getD i 0) :
    lo.getD i 0 ≤ (List.zipWith min (List.zipWith max s lo) hi).getD i 0
    ∧ (List.zipWith min (List.zipWith max s lo) hi).getD i 0 ≤ hi.getD i 0 := by
  induction s generalizing lo hi i with
  | nil => simp at h
  | cons a as ih =>
    cases lo with
    | nil => simp at h
    | cons l ls =>
      cases hi with
      | nil => simp at h
      | cons b bs =>
        cases i with
        | zero =>
          simp only [List.zipWith_cons_cons, List.getD_cons_zero] at hlh ⊢
          exact ⟨le_min (le_trans (le_max_right a l) (le_refl _)) hlh, min_le_right _ _⟩
        | succ n =>
          simp only [List.zipWith_cons_cons, List.length_cons, List.getD_cons_succ] at h hlh ⊢
          exact ih ls bs n (by omega) hlh

/-- C3 counterexample: in binary mode, the initial position is the raw
uniform `[0,1)` draw (PSO.py line 59), so a particle initialised with draw
`1/2` has position `[1/2]`, which is not in `{0,1}` — the claim's binary-mode
part fails "at all times" (it fails at initialisation). -/
theorem C3_binary_init_cex :
    (Particle.initial_position ⟨[], [], [], none⟩ [0] [1] 1 [1/2] [0]).position = [1/2]
    ∧ ¬((1 : ℚ)/2 = 0 ∨ (1 : ℚ)/2 = 1) := by
  exact ⟨rfl, by norm_num⟩

/-- C3 amended: assuming `varmin[i] ≤ varmax[i]` elementwise, in continuous
mode every position update clamps the position into
`[varmin[i], varmax[i]]`, and in binary mode every position *update* yields
components in `{0,1}` (initial binary positions, drawn from `[0,1)`, need
not be). -/
theorem C3_position_invariant (p : Particle) (varmin varmax : List ℚ) (sig : ℚ → ℚ)
    (bin : List ℚ)
    (hle : ∀ i, i < varmin.length → i < varmax.length → varmin.getD i 0 ≤ varmax.getD i 0) :
    (∀ i, i < (p.update_position varmin varmax 0 sig bin).position.length →
      varmin.getD i 0 ≤ (p.update_position varmin varmax 0 sig bin).position.getD i 0
      ∧ (p.update_position varmin varmax 0 sig bin).position.getD i 0 ≤ varmax.getD i 0)
    ∧ (∀ x ∈ (p.update_position varmin varmax 1 sig bin).position, x = 0 ∨ x = 1) := by
  constructor
  · intro i hi
    have hi' : i < (List.zipWith min (List.zipWith max
        (List.zipWith (fun a b => a + b) p.position p.velocity) varmin) varmax).length := hi
    have h1 : i < varmin.length := by
      rw [List.length_zipWith, List.length_zipWith] at hi'; omega
    have h2 : i < varmax.length := by
      rw [List.length_zipWith, List.length_zipWith] at hi'; omega
    exact getD_clamp _ _ _ i hi' (hle i h1 h2)
  · intro x hx
    exact binary_pos_mem (p.velocity.map sig) bin x hx

/-- C3 witness: a concrete clamped update and a concrete binary update. -/
theorem C3_position_invariant_witness :
    (∀ i, i < ((⟨[5], [9], [5], some 0⟩ : Particle).update_position [0] [1] 0
        (fun x => x) []).position.length →
      [(0 : ℚ)].getD i 0 ≤ ((⟨[5], [9], [5], some 0⟩ : Particle).update_position [0] [1] 0
        (fun x => x) []).position.getD i 0
      ∧ ((⟨[5], [9], [5], some 0⟩ : Particle).update_position [0] [1] 0
        (fun x => x) []).position.getD i 0 ≤ [(1 : ℚ)].getD i 0)
    ∧ (∀ x ∈ ((⟨[5], [9], [5], some 0⟩ : Particle).update_position [0] [1] 1
        (fun x => x) []).position, x = 0 ∨ x = 1) :=
  C3_position_invariant ⟨[5], [9], [5], some 0⟩ [0] [1] (fun x => x) []
    (fun i h1 _ => by
      have hi0 : i = 0 := by simpa [Nat.lt_one_iff] using h1
      subst hi0
      norm_num)

/-! ## C6 -/

/-- Length of the raw velocity formula output. -/
theorem vel_formula_length (con w c1 c2 r1 r2 : ℚ) :
    ∀ (v pb x g : List ℚ), pb.length = v.length → x.length = v.length →
      g.length = v.length →
      (vel_formula con w c1 c2 r1 r2 v pb x g).length = v.length := by
  intro v
  induction v with
  | nil => intro pb x g _ _ _; cases pb <;> cases x <;> cases g <;> simp [vel_formula]
  | cons a as ih =>
    intro pb x g hpb hx hg
    cases pb with
    | nil => simp at hpb
    | cons b bs =>
      cases x with
      | nil => simp at hx
      | cons c cs =>
        cases g with
        | nil => simp at hg
        | cons d ds =>
          simp only [vel_formula, List.length_cons] at hpb hx hg ⊢
          rw [ih bs cs ds (by omega) (by omega) (by omega)]

/-- Index-wise description of the raw velocity formula. -/
theorem vel_formula_getD (con w c1 c2 r1 r2 : ℚ) :
    ∀ (v pb x g : List ℚ) (i : ℕ), pb.length = v.length → x.length = v.length →
      g.length = v.length → i < v.length →
      (vel_formula con w c1 c2 r1 r2 v pb x g).getD i 0
        = con * ((w * v.getD i 0) + (c1 * r1 * (pb.getD i 0 - x.getD i 0))
            + (c2 * r2 * (g.getD i 0 - x.getD i 0))) := by
  intro v
  induction v with
  | nil => intro pb x g i _ _ _ hi; simp at hi
  | cons a as ih =>
    intro pb x g i hpb hx hg hi
    cases pb with
    | nil => simp at hpb
    | cons b bs =>
      cases x with
      | nil => simp at hx
      | cons c cs =>
        cases g with
        | nil => simp at hg
        | cons d ds =>
          cases i with
          | zero => simp [vel_formula]
          | succ n =>
            simp only [vel_formula, List.getD_cons_succ, List.length_cons] at hpb hx hg hi ⊢
            exact ih bs cs ds n (by omega) (by omega) (by omega) (by omega)

/-- Elementwise description of `min`/`max` zipWith clamping at an index. -/
theorem getD_zipWith_minmax (u mn mx : List ℚ) (i : ℕ)
    (hmn : mn.length = u.length) (hmx : mx.length = u.length) (hi : i < u.length) :
    (List.zipWith min (List.zipWith max u mn) mx).getD i 0
      = min (max (u.getD i 0) (mn.getD i 0)) (mx.getD i 0) := by
  induction u generalizing mn mx i with
  | nil => simp at hi
  | cons a as ih =>
    cases mn with
    | nil => simp at hmn
    | cons b bs =>
      cases mx with
      | nil => simp at hmx
      | cons c cs =>
        cases i with
        | zero => simp
        | succ n =>
          simp only [List.zipWith_cons_cons, List.getD_cons_succ, List.length_cons]
            at hmn hmx hi ⊢
          exact ih bs cs n (by omega) (by omega) (by omega)

/-- C6: `update_velocity` draws a single scalar `r1` and a single scalar
`r2` per call (they appear as per-call scalars applied across every
dimension), sets
`velocity[i] = con * (w * velocity[i] + c1 * r1 * (pbest_position[i] -
position[i]) + c2 * r2 * (gbest_position[i] - position[i]))`, and clamps the
result elementwise into `[min_velocity[i], max_velocity[i]]`. -/
theorem C6_update_velocity (p : Particle) (con w c1 c2 r1 r2 : ℚ) (gb mn mx : List ℚ)
    (h1 : p.pbest_position.length = p.velocity.length)
    (h2 : p.position.length = p.velocity.length)
    (h3 : gb.length = p.velocity.length) (h4 : mn.length = p.velocity.length)
    (h5 : mx.length = p.velocity.length) :
    ((p.update_velocity con w c1 c2 r1 r2 gb mn mx).velocity.length = p.velocity.length)
    ∧ ∀ i, i < p.velocity.length →
      (p.update_velocity con w c1 c2 r1 r2 gb mn mx).velocity.getD i 0
        = min (max (con * ((w * p.velocity.getD i 0)
            + (c1 * r1 * (p.pbest_position.getD i 0 - p.position.getD i 0))
            + (c2 * r2 * (gb.getD i 0 - p.position.getD i 0)))) (mn.getD i 0))
          (mx.getD i 0) := by
  have hraw := vel_formula_length con w c1 c2 r1 r2 p.velocity p.pbest_position
    p.position gb h1 h2 h3
  constructor
  · simp only [Particle.update_velocity, List.length_zipWith, hraw, h4, h5]
    omega
  · intro i hi
    simp only [Particle.update_velocity]
    rw [getD_zipWith_minmax _ mn mx i (by omega) (by omega) (by omega : i < _)]
    rw [vel_formula_getD con w c1 c2 r1 r2 p.velocity p.pbest_position p.position gb i
      h1 h2 h3 hi]

/-- C6 witness: a concrete one-dimensional velocity update. -/
theorem C6_update_velocity_witness :
    (((⟨[0], [2], [1], some 0⟩ : Particle).update_velocity 1 1 2 2 (1/2) (1/4) [3] [-1] [1]).velocity.length = 1)
    ∧ ∀ i, i < 1 →
      (((⟨[0], [2], [1], some 0⟩ : Particle).update_velocity 1 1 2 2 (1/2) (1/4) [3] [-1] [1]).velocity.getD i 0
        = min (max ((1 : ℚ) * ((1 * [(2 : ℚ)].getD i 0)
            + (2 * (1/2) * ([(1 : ℚ)].getD i 0 - [(0 : ℚ)].getD i 0))
            + (2 * (1/4) * ([(3 : ℚ)].getD i 0 - [(0 : ℚ)].getD i 0)))) ([(-1 : ℚ)].getD i 0))
          ([(1 : ℚ)].getD i 0)) :=
  C6_update_velocity ⟨[0], [2], [1], some 0⟩ 1 1 2 2 (1/2) (1/4) [3] [-1] [1]
    rfl rfl rfl rfl rfl

/-! ## C8 -/

/-- C8 counterexample: the claim ("different lengths → must fail") is false
when one bound has length 1: numpy broadcasting makes
`varmax - varmin` succeed with `varmin` of length 3 and `varmax` of length 1,
the uniform initial draws broadcast too, and (with `con` supplied and
`maxit = 0`) the run returns successfully. -/
theorem C8_broadcast_cex :
    isError (PSO ⟨fun _ => 0, [0, 0, 0], [1]⟩
        { maxit := some 0, n_part := some 1, con := some 1 } zeroRng (fun x => x)) = false
    ∧ [(0 : ℚ), 0, 0].length ≠ [(1 : ℚ)].length := ⟨rfl, by decide⟩

/-- C8 amended: when `varmin` and `varmax` have different lengths and
neither has length 1 (so numpy broadcasting does not apply — e.g. lengths 2
and 3), PSO fails rather than running with silently truncated bounds;
moreover, whenever the `con` and `velocity_limit_scale` reads succeed, the
failure is precisely the numpy `ValueError` from `varmax - varmin`. -/
theorem C8_mismatch_no_broadcast (problem : Problem) (params0 : Params) (rng : RandSource)
    (sig : ℚ → ℚ) (h : problem.varmin.length ≠ problem.varmax.length)
    (h1 : problem.varmin.length ≠ 1) (h2 : problem.varmax.length ≠ 1) :
    isError (PSO problem params0 rng sig) = true
    ∧ ((default_PSO_params params0).con ≠ none →
        (default_PSO_params params0).velocity_limit_scale ≠ none →
        PSO problem params0 rng sig = .error .valueError) := by
  have hne : problem.varmax.length ≠ problem.varmin.length := fun hh => h hh.symm
  have hs : npSub problem.varmax problem.varmin = none := by
    unfold npSub
    rw [if_neg hne, if_neg h2, if_neg h1]
  constructor
  · cases hc : (default_PSO_params params0).con with
    | none => simp [PSO, build_cfg, hc, isError]
    | some c =>
      cases hv : (default_PSO_params params0).velocity_limit_scale with
      | none => simp [PSO, build_cfg, hc, hv, isError]
      | some v => simp [PSO, build_cfg, hc, hv, hs, isError]
  · intro hcon hvls
    cases hc : (default_PSO_params params0).con with
    | none => exact absurd hc hcon
    | some c =>
      cases hv : (default_PSO_params params0).velocity_limit_scale with
      | none => exact absurd hv hvls
      | some v => simp [PSO, build_cfg, hc, hv, hs]

/-- C8 witness: `varmin` of length 2 against `varmax` of length 3, with
`con` supplied so that the failure surfaces as the numpy `ValueError` of the
bounds subtraction itself. -/
theorem C8_mismatch_no_broadcast_witness :
    PSO ⟨fun _ => 0, [0, 0], [0, 0, 0]⟩ { con := some 1 } zeroRng (fun x => x)
      = .error .valueError :=
  (C8_mismatch_no_broadcast ⟨fun _ => 0, [0, 0], [0, 0, 0]⟩ { con := some 1 } zeroRng
    (fun x => x) (by decide) (by decide) (by decide)).2 (by decide) (by decide)

/-! ## C10 -/

/-- Draw source for the concrete binary run of C10. -/
def rngC10 : RandSource :=
  ⟨fun _ => [1/2], fun _ => [0], fun _ _ => 0, fun _ _ => 0, fun _ _ => []⟩

/-- Final state of the concrete binary run of C10 (`BPSO = 1`, `maxit = 0`,
`con` supplied, one particle, position draw `1/2`). -/
def stC10 : SwarmState :=
  match PSO ⟨fun _ => 0, [0], [1]⟩
      { maxit := some 0, n_part := some 1, con := some 1, BPSO := some 1 }
      rngC10 (fun x => x) with
  | .ok st => st
  | .error _ => ⟨[], none, [], 0, [], 0⟩

/-- C10: in binary mode a particle's initial position is the raw uniform
`[0,1)` draw, not thresholded to `{0,1}`, and its personal best is seeded
with the cost at that continuous position; consequently a run that never
improves on the initial best (here `maxit = 0` with `con` supplied) returns
a `gbest_position` with a component `1/2 ∉ {0,1}`. -/
theorem C10_binary_init_continuous (cost : List ℚ → ℚ) (varmin varmax u uv : List ℚ)
    (hu : u.length = varmin.length) :
    ((make_particle cost varmin varmax 1 u uv).position = u
      ∧ (make_particle cost varmin varmax 1 u uv).pbest_value = some (cost u))
    ∧ (stC10.gbest_position = [1/2]
      ∧ ¬((1 : ℚ)/2 = 0 ∨ (1 : ℚ)/2 = 1)) := by
  have hpos : (make_particle cost varmin varmax 1 u uv).position = u := by
    simp [make_particle, Particle.initial_position, np_uniform01, ← hu]
  refine ⟨⟨hpos, ?_⟩, rfl, by norm_num⟩
  have hpb : (make_particle cost varmin varmax 1 u uv).pbest_value
      = some (cost ((make_particle cost varmin varmax 1 u uv).position)) := rfl
  rw [hpb, hpos]

/-- C10 witness: the concrete draw `1/2` gives initial position `[1/2]`. -/
theorem C10_binary_init_continuous_witness :
    (make_particle (fun _ => (0 : ℚ)) [0] [1] 1 [1/2] [0]).position = [1/2]
    ∧ stC10.gbest_position = [1/2] := by
  have h := C10_binary_init_continuous (fun _ => (0 : ℚ)) [0] [1] [1/2] [0] rfl
  exact ⟨h.1.1, h.2.1⟩

/-! ## Generic list lemmas -/

theorem getD_set_eq {α : Type} (l : List α) (i : ℕ) (a d : α) (h : i < l.length) :
    (l.set i a).getD i d = a := by
  simp [List.getD_eq_getElem?_getD, List.getElem?_set_self h]

theorem getD_set_ne {α : Type} (l : List α) (i j : ℕ) (a d : α) (h : i ≠ j) :
    (l.set i a).getD j d = l.getD j d := by
  simp [List.getD_eq_getElem?_getD, List.getElem?_set_ne h]

theorem getD_replicate {α : Type} (n j : ℕ) (x d : α) (h : j < n) :
    (List.replicate n x).getD j d = x := by
  simp [List.getD_eq_getElem?_getD, List.getElem?_replicate, h]

/-! ## Step lemmas -/

/-- The position/velocity updates do not touch `pbest_value`. -/
theorem update_position_pbest_value (p : Particle) (varmin varmax : List ℚ) (BPSO : ℕ)
    (sig : ℚ → ℚ) (bin : List ℚ) :
    (p.update_position varmin varmax BPSO sig bin).pbest_value = p.pbest_value := by
  unfold Particle.update_position
  split <;> rfl

theorem particles_pass_nil (cfg : Cfg) (w : ℚ) (it idx : ℕ) (gb : Option ℚ × List ℚ) :
    particles_pass cfg w it idx gb [] = ([], gb) := rfl

theorem particles_pass_cons (cfg : Cfg) (w : ℚ) (it idx : ℕ) (gb : Option ℚ × List ℚ)
    (p : Particle) (rest : List Particle) :
    particles_pass cfg w it idx gb (p :: rest)
      = ((particle_step cfg w it idx gb p).1
          :: (particles_pass cfg w it (idx + 1) (particle_step cfg w it idx gb p).2 rest).1,
         (particles_pass cfg w it (idx + 1) (particle_step cfg w it idx gb p).2 rest).2) := rfl

/-- The moved particle fed to `best_update` inside `particle_step`. -/
def moved (cfg : Cfg) (w : ℚ) (it idx : ℕ) (gb : Option ℚ × List ℚ) (p : Particle) : Particle :=
  (p.update_velocity cfg.con w cfg.c1 cfg.c2 (cfg.rng.r1 it idx) (cfg.rng.r2 it idx)
      gb.2 cfg.min_velocity cfg.max_velocity).update_position cfg.varmin cfg.varmax
    cfg.BPSO cfg.sig (cfg.rng.bin it idx)

theorem particle_step_eq (cfg : Cfg) (w : ℚ) (it idx : ℕ) (gb : Option ℚ × List ℚ)
    (p : Particle) :
    particle_step cfg w it idx gb p = best_update cfg.cost gb (moved cfg w it idx gb p) := rfl

theorem moved_pbest_value (cfg : Cfg) (w : ℚ) (it idx : ℕ) (gb : Option ℚ × List ℚ)
    (p : Particle) : (moved cfg w it idx gb p).pbest_value = p.pbest_value :=
  update_position_pbest_value _ _ _ _ _ _

/-- The global best value never increases in `best_update`. -/
theorem best_update_gb_le (cost : List ℚ → ℚ) (gb : Option ℚ × List ℚ) (p : Particle) :
    leOpt (best_update cost gb p).2.1 gb.1 = true := by
  unfold best_update
  by_cases h1 : ltOpt (cost p.position) p.pbest_value = true
  · by_cases h2 : ltOpt (cost p.position) gb.1 = true
    · simp only [h1, h2, if_true]
      exact ltOpt_leOpt h2
    · simp only [h1, h2, if_true, if_false]
      exact leOpt_refl _
  · simp only [h1, if_false]
    exact leOpt_refl _

/-- After `best_update`, the global best is at most the particle's personal
best, provided it was before. -/
theorem best_update_ub (cost : List ℚ → ℚ) (gb : Option ℚ × List ℚ) (p : Particle)
    (h : leOpt gb.1 p.pbest_value = true) :
    leOpt (best_update cost gb p).2.1 (best_update cost gb p).1.pbest_value = true := by
  unfold best_update
  by_cases h1 : ltOpt (cost p.position) p.pbest_value = true
  · by_cases h2 : ltOpt (cost p.position) gb.1 = true
    · simp only [h1, h2, if_true]
      exact leOpt_refl _
    · simp only [h1, h2, if_true, if_false]
      exact not_ltOpt_leOpt (by simpa using h2)
  · simp only [h1, if_false]
    exact h

/-- Case split for `best_update`: either the new global best is attained by
the updated particle, or the global best is unchanged and then either the
particle's personal best is unchanged or it was not the attaining one. -/
theorem best_update_cases (cost : List ℚ → ℚ) (gb : Option ℚ × List ℚ) (p : Particle) :
    ((best_update cost gb p).2.1 = (best_update cost gb p).1.pbest_value)
    ∨ ((best_update cost gb p).2 = gb
        ∧ ((best_update cost gb p).1.pbest_value = p.pbest_value ∨ gb.1 ≠ p.pbest_value)) := by
  unfold best_update
  by_cases h1 : ltOpt (cost p.position) p.pbest_value = true
  · by_cases h2 : ltOpt (cost p.position) gb.1 = true
    · simp only [h1, h2, if_true]
      left; trivial
    · simp only [h1, h2, if_true, if_false]
      right
      refine ⟨rfl, Or.inr fun he => ?_⟩
      rw [he] at h2
      exact h2 h1
  · simp only [h1, if_false]
    exact Or.inr ⟨rfl, Or.inl rfl⟩

theorem particle_step_gb_le (cfg : Cfg) (w : ℚ) (it idx : ℕ) (gb : Option ℚ × List ℚ)
    (p : Particle) : leOpt (particle_step cfg w it idx gb p).2.1 gb.1 = true := by
  rw [particle_step_eq]
  exact best_update_gb_le _ _ _

theorem particle_step_ub (cfg : Cfg) (w : ℚ) (it idx : ℕ) (gb : Option ℚ × List ℚ)
    (p : Particle) (h : leOpt gb.1 p.pbest_value = true) :
    leOpt (particle_step cfg w it idx gb p).2.1
      (particle_step cfg w it idx gb p).1.pbest_value = true := by
  rw [particle_step_eq]
  exact best_update_ub _ _ _ (by rw [moved_pbest_value]; exact h)

theorem particle_step_cases (cfg : Cfg) (w : ℚ) (it idx : ℕ) (gb : Option ℚ × List ℚ)
    (p : Particle) :
    ((particle_step cfg w it idx gb p).2.1 = (particle_step cfg w it idx gb p).1.pbest_value)
    ∨ ((particle_step cfg w it idx gb p).2 = gb
        ∧ ((particle_step cfg w it idx gb p).1.pbest_value = p.pbest_value
            ∨ gb.1 ≠ p.pbest_value)) := by
  rw [particle_step_eq]
  have h := best_update_cases cfg.cost gb (moved cfg w it idx gb p)
  rwa [moved_pbest_value] at h

/-! ## Pass lemmas -/

/-- The global best value never increases across a particle pass. -/
theorem particles_pass_gb_le (cfg : Cfg) (w : ℚ) (it : ℕ) (ps : List Particle) :
    ∀ (idx : ℕ) (gb : Option ℚ × List ℚ),
      leOpt (particles_pass cfg w it idx gb ps).2.1 gb.1 = true := by
  induction ps with
  | nil => intro idx gb; exact leOpt_refl _
  | cons p rest ih =>
    intro idx gb
    rw [particles_pass_cons]
    exact leOpt_trans (ih (idx + 1) (particle_step cfg w it idx gb p).2)
      (particle_step_gb_le cfg w it idx gb p)

/-- After a pass, the final global best is at most every output particle's
personal best, provided it was at most every input particle's. -/
theorem particles_pass_ub (cfg : Cfg) (w : ℚ) (it : ℕ) (ps : List Particle) :
    ∀ (idx : ℕ) (gb : Option ℚ × List ℚ),
      (∀ q ∈ ps, leOpt gb.1 q.pbest_value = true) →
      ∀ q ∈ (particles_pass cfg w it idx gb ps).1,
        leOpt (particles_pass cfg w it idx gb ps).2.1 q.pbest_value = true := by
  induction ps with
  | nil => intro idx gb _ q hq; rw [particles_pass_nil] at hq; exact absurd hq (by simp)
  | cons p rest ih =>
    intro idx gb h q hq
    rw [particles_pass_cons] at hq ⊢
    rcases List.mem_cons.mp hq with rfl | hq'
    · exact leOpt_trans (particles_pass_gb_le cfg w it rest (idx + 1) _)
        (particle_step_ub cfg w it idx gb p (h p (List.mem_cons_self p rest)))
    · refine ih (idx + 1) (particle_step cfg w it idx gb p).2 ?_ q hq'
      intro q' hq''
      exact leOpt_trans (particle_step_gb_le cfg w it idx gb p)
        (h q' (List.mem_cons_of_mem p hq''))

/-- After a pass, the final global best is either unchanged or attained by
an output particle. -/
theorem particles_pass_att_or (cfg : Cfg) (w : ℚ) (it : ℕ) (ps : List Particle) :
    ∀ (idx : ℕ) (gb : Option ℚ × List ℚ),
      (particles_pass cfg w it idx gb ps).2.1 = gb.1
      ∨ ∃ q ∈ (particles_pass cfg w it idx gb ps).1,
          (particles_pass cfg w it idx gb ps).2.1 = q.pbest_value := by
  induction ps with
  | nil => intro idx gb; left; rfl
  | cons p rest ih =>
    intro idx gb
    rw [particles_pass_cons]
    rcases ih (idx + 1) (particle_step cfg w it idx gb p).2 with h | ⟨q, hq, he⟩
    · rcases particle_step_cases cfg w it idx gb p with hA | ⟨hB, -⟩
      · right
        exact ⟨(particle_step cfg w it idx gb p).1, List.mem_cons_self _ _, by rw [h, hA]⟩
      · left
        rw [h, hB]
    · right
      exact ⟨q, List.mem_cons_of_mem _ hq, he⟩

/-- After a pass, if the incoming global best was attained by an input
particle then the final global best is attained by an output particle. -/
theorem particles_pass_att (cfg : Cfg) (w : ℚ) (it : ℕ) (ps : List Particle) :
    ∀ (idx : ℕ) (gb : Option ℚ × List ℚ),
      (∃ q ∈ ps, gb.1 = q.pbest_value) →
      ∃ q ∈ (particles_pass cfg w it idx gb ps).1,
        (particles_pass cfg w it idx gb ps).2.1 = q.pbest_value := by
  induction ps with
  | nil =>
    intro idx gb h
    obtain ⟨q, hq, -⟩ := h
    exact absurd hq (by simp)
  | cons p rest ih =>
    intro idx gb h0
    obtain ⟨q, hq, he⟩ := h0
    rw [particles_pass_cons]
    rcases particle_step_cases cfg w it idx gb p with hA | ⟨hB, hC⟩
    · rcases particles_pass_att_or cfg w it rest (idx + 1)
          (particle_step cfg w it idx gb p).2 with h1 | ⟨q', hq', he'⟩
      · exact ⟨(particle_step cfg w it idx gb p).1, List.mem_cons_self _ _, by rw [h1, hA]⟩
      · exact ⟨q', List.mem_cons_of_mem _ hq', he'⟩
    · rcases List.mem_cons.mp hq with rfl | hq'
      · rcases hC with hC1 | hC2
        · rcases particles_pass_att_or cfg w it rest (idx + 1)
              (particle_step cfg w it idx gb q).2 with h1 | ⟨q', hq', he'⟩
          · refine ⟨(particle_step cfg w it idx gb q).1, List.mem_cons_self _ _, ?_⟩
            rw [h1, hB, hC1]
            exact he
          · exact ⟨q', List.mem_cons_of_mem _ hq', he'⟩
        · exact absurd he hC2
      · obtain ⟨q', hq'', he'⟩ := ih (idx + 1) (particle_step cfg w it idx gb p).2
          ⟨q, hq', by rw [hB]; exact he⟩
        exact ⟨q', List.mem_cons_of_mem _ hq'', he'⟩

/-! ## Initialisation lemmas -/

/-- The particle created at initialisation index `idx`. -/
def init_p (cfg : Cfg) (idx : ℕ) : Particle :=
  make_particle cfg.cost cfg.varmin cfg.varmax cfg.BPSO (cfg.rng.initPos idx) (cfg.rng.initVel idx)

/-- The global best after considering the particle at index `idx`. -/
def init_gb_next (cfg : Cfg) (idx : ℕ) (gb : Option ℚ × List ℚ) : Option ℚ × List ℚ :=
  if ltOpt (cfg.cost (init_p cfg idx).position) gb.1
  then (some (cfg.cost (init_p cfg idx).position), (init_p cfg idx).pbest_position) else gb

theorem init_p_pbest (cfg : Cfg) (idx : ℕ) :
    (init_p cfg idx).pbest_value = some (cfg.cost (init_p cfg idx).position) := rfl

theorem init_particles_zero (cfg : Cfg) (idx : ℕ) (gb : Option ℚ × List ℚ) :
    init_particles cfg idx gb 0 = ([], gb) := rfl

theorem init_particles_succ (cfg : Cfg) (idx : ℕ) (gb : Option ℚ × List ℚ) (n : ℕ) :
    init_particles cfg idx gb (n + 1)
      = (init_p cfg idx :: (init_particles cfg (idx + 1) (init_gb_next cfg idx gb) n).1,
         (init_particles cfg (idx + 1) (init_gb_next cfg idx gb) n).2) := rfl

theorem init_gb_next_le (cfg : Cfg) (idx : ℕ) (gb : Option ℚ × List ℚ) :
    leOpt (init_gb_next cfg idx gb).1 gb.1 = true := by
  unfold init_gb_next
  by_cases h : ltOpt (cfg.cost (init_p cfg idx).position) gb.1 = true
  · rw [if_pos h]; exact ltOpt_leOpt h
  · rw [if_neg h]; exact leOpt_refl _

theorem init_particles_gb_le (cfg : Cfg) (n : ℕ) :
    ∀ (idx : ℕ) (gb : Option ℚ × List ℚ),
      leOpt (init_particles cfg idx gb n).2.1 gb.1 = true := by
  induction n with
  | zero => intro idx gb; exact leOpt_refl _
  | succ m ih =>
    intro idx gb
    rw [init_particles_succ]
    exact leOpt_trans (ih (idx + 1) (init_gb_next cfg idx gb)) (init_gb_next_le cfg idx gb)

theorem init_particles_ub (cfg : Cfg) (n : ℕ) :
    ∀ (idx : ℕ) (gb : Option ℚ × List ℚ) (q : Particle), q ∈ (init_particles cfg idx gb n).1 →
      leOpt (init_particles cfg idx gb n).2.1 q.pbest_value = true := by
  induction n with
  | zero => intro idx gb q hq; rw [init_particles_zero] at hq; exact absurd hq (by simp)
  | succ m ih =>
    intro idx gb q hq
    rw [init_particles_succ] at hq ⊢
    rcases List.mem_cons.mp hq with rfl | hq'
    · have h1 : leOpt (init_gb_next cfg idx gb).1 (init_p cfg idx).pbest_value = true := by
        rw [init_p_pbest]
        unfold init_gb_next
        by_cases h : ltOpt (cfg.cost (init_p cfg idx).position) gb.1 = true
        · rw [if_pos h]; exact leOpt_refl _
        · rw [if_neg h]; exact not_ltOpt_leOpt (by simpa using h)
      exact leOpt_trans (init_particles_gb_le cfg m (idx + 1) _) h1
    · exact ih (idx + 1) _ q hq'

theorem init_particles_att_or (cfg : Cfg) (n : ℕ) :
    ∀ (idx : ℕ) (gb : Option ℚ × List ℚ),
      (init_particles cfg idx gb n).2.1 = gb.1
      ∨ ∃ q ∈ (init_particles cfg idx gb n).1,
          (init_particles cfg idx gb n).2.1 = q.pbest_value := by
  induction n with
  | zero => intro idx gb; left; rfl
  | succ m ih =>
    intro idx gb
    rw [init_particles_succ]
    rcases ih (idx + 1) (init_gb_next cfg idx gb) with h | ⟨q, hq, he⟩
    · by_cases hlt : ltOpt (cfg.cost (init_p cfg idx).position) gb.1 = true
      · right
        refine ⟨init_p cfg idx, List.mem_cons_self _ _, ?_⟩
        rw [h, init_p_pbest]
        unfold init_gb_next
        rw [if_pos hlt]
      · left
        rw [h]
        unfold init_gb_next
        rw [if_neg hlt]
    · right; exact ⟨q, List.mem_cons_of_mem _ hq, he⟩

theorem init_particles_att_of_none (cfg : Cfg) (m idx : ℕ) (gb : Option ℚ × List ℚ)
    (hg : gb.1 = none) :
    ∃ q ∈ (init_particles cfg idx gb (m + 1)).1,
      (init_particles cfg idx gb (m + 1)).2.1 = q.pbest_value := by
  rw [init_particles_succ]
  have hlt : ltOpt (cfg.cost (init_p cfg idx).position) gb.1 = true := by rw [hg]; rfl
  rcases init_particles_att_or cfg m (idx + 1) (init_gb_next cfg idx gb) with h | ⟨q, hq, he⟩
  · refine ⟨init_p cfg idx, List.mem_cons_self _ _, ?_⟩
    rw [h, init_p_pbest]
    unfold init_gb_next
    rw [if_pos hlt]
  · exact ⟨q, List.mem_cons_of_mem _ hq, he⟩

/-! ## The iteration sequence -/

/-- The run state after `k` completed iterations (`k = 0` is the state just
before the main loop). -/
def state_after (cfg : Cfg) : ℕ → SwarmState
  | 0 => init_state cfg
  | k + 1 => one_iteration cfg k (state_after cfg k)

theorem state_after_zero (cfg : Cfg) : state_after cfg 0 = init_state cfg := rfl

theorem state_after_succ (cfg : Cfg) (k : ℕ) :
    state_after cfg (k + 1) = one_iteration cfg k (state_after cfg k) := rfl

theorem one_iteration_completed (cfg : Cfg) (it : ℕ) (st : SwarmState) :
    (one_iteration cfg it st).completed = st.completed + 1 := rfl

theorem one_iteration_particles (cfg : Cfg) (it : ℕ) (st : SwarmState) :
    (one_iteration cfg it st).particles
      = (particles_pass cfg st.w it 0 (st.gbest_value, st.gbest_position) st.particles).1 := rfl

theorem one_iteration_gbv (cfg : Cfg) (it : ℕ) (st : SwarmState) :
    (one_iteration cfg it st).gbest_value
      = (particles_pass cfg st.w it 0 (st.gbest_value, st.gbest_position) st.particles).2.1 := rfl

theorem one_iteration_bc (cfg : Cfg) (it : ℕ) (st : SwarmState) :
    (one_iteration cfg it st).best_costs
      = st.best_costs.set (it + 1)
          (particles_pass cfg st.w it 0 (st.gbest_value, st.gbest_position) st.particles).2.1 :=
  rfl

theorem init_state_particles (cfg : Cfg) :
    (init_state cfg).particles = (init_particles cfg 0 (none, []) cfg.n_part).1 := rfl

theorem init_state_gbv (cfg : Cfg) :
    (init_state cfg).gbest_value = (init_particles cfg 0 (none, []) cfg.n_part).2.1 := rfl

theorem init_state_bc (cfg : Cfg) :
    (init_state cfg).best_costs
      = (List.replicate (cfg.maxit + 1) (some 0)).set 0
          (init_particles cfg 0 (none, []) cfg.n_part).2.1 := rfl

theorem one_iteration_gb_le (cfg : Cfg) (it : ℕ) (st : SwarmState) :
    leOpt (one_iteration cfg it st).gbest_value st.gbest_value = true := by
  rw [one_iteration_gbv]
  exact particles_pass_gb_le cfg st.w it st.particles 0 (st.gbest_value, st.gbest_position)

theorem state_after_completed (cfg : Cfg) : ∀ k, (state_after cfg k).completed = k := by
  intro k
  induction k with
  | zero => rfl
  | succ n ih => rw [state_after_succ, one_iteration_completed, ih]

theorem state_after_gb_le (cfg : Cfg) (k : ℕ) :
    leOpt (state_after cfg (k + 1)).gbest_value (state_after cfg k).gbest_value = true := by
  rw [state_after_succ]
  exact one_iteration_gb_le cfg k (state_after cfg k)

theorem state_after_bc_length (cfg : Cfg) :
    ∀ k, (state_after cfg k).best_costs.length = cfg.maxit + 1 := by
  intro k
  induction k with
  | zero => rw [state_after_zero, init_state_bc]; simp
  | succ n ih => rw [state_after_succ, one_iteration_bc]; simpa using ih

/-- Entry `j` of `best_costs` after `k ≥ j` iterations is the global best
value at the end of iteration `j`. -/
theorem state_after_bc_entry (cfg : Cfg) :
    ∀ k, k ≤ cfg.maxit → ∀ j, j ≤ k →
      (state_after cfg k).best_costs.getD j none = (state_after cfg j).gbest_value := by
  intro k
  induction k with
  | zero =>
    intro _ j hj
    have hj0 : j = 0 := Nat.le_zero.mp hj
    subst hj0
    rw [state_after_zero, init_state_bc, init_state_gbv]
    exact getD_set_eq _ 0 _ none (by simp)
  | succ n ih =>
    intro hk j hj
    rw [state_after_succ, one_iteration_bc]
    rcases Nat.eq_or_lt_of_le hj with rfl | hlt
    · rw [getD_set_eq _ (n + 1) _ none (by rw [state_after_bc_length]; omega)]
      rw [state_after_succ, one_iteration_gbv]
    · rw [getD_set_ne _ (n + 1) j _ none (by omega)]
      exact ih (by omega) j (by omega)

/-! ## The main loop reaches an iteration state -/

theorem run_iters_zero (cfg : Cfg) (it : ℕ) (st : SwarmState) :
    run_iters cfg it 0 st = st := rfl

theorem run_iters_succ (cfg : Cfg) (it fuel : ℕ) (st : SwarmState) :
    run_iters cfg it (fuel + 1) st
      = if stop_check cfg it (one_iteration cfg it st) = true
        then one_iteration cfg it st
        else run_iters cfg (it + 1) fuel (one_iteration cfg it st) := rfl

theorem run_iters_reaches (cfg : Cfg) :
    ∀ (fuel it : ℕ), ∃ m, it ≤ m ∧ m ≤ it + fuel
      ∧ run_iters cfg it fuel (state_after cfg it) = state_after cfg m := by
  intro fuel
  induction fuel with
  | zero => intro it; exact ⟨it, le_refl _, by omega, rfl⟩
  | succ f ih =>
    intro it
    rw [run_iters_succ]
    by_cases hs : stop_check cfg it (one_iteration cfg it (state_after cfg it)) = true
    · refine ⟨it + 1, by omega, by omega, ?_⟩
      rw [if_pos hs, ← state_after_succ]
    · obtain ⟨m, h1, h2, h3⟩ := ih (it + 1)
      refine ⟨m, by omega, by omega, ?_⟩
      rw [if_neg hs]
      rw [show one_iteration cfg it (state_after cfg it) = state_after cfg (it + 1) from rfl]
      exact h3

theorem PSO_eq_of_error (problem : Problem) (params0 : Params) (rng : RandSource)
    (sig : ℚ → ℚ) (e : PSOErr) (hb : build_cfg problem params0 rng sig = .error e) :
    PSO problem params0 rng sig = .error e := by
  unfold PSO
  rw [hb]

theorem PSO_eq_of_ok (problem : Problem) (params0 : Params) (rng : RandSource)
    (sig : ℚ → ℚ) (cfg : Cfg) (hb : build_cfg problem params0 rng sig = .ok cfg) :
    PSO problem params0 rng sig
      = if cfg.n_part != 0 && !np_uniform_valid cfg.varmin cfg.varmax cfg.varmin.length
        then .error .valueError
        else .ok (run_iters cfg 0 cfg.maxit (init_state cfg)) := by
  unfold PSO
  rw [hb]

/-- A successful PSO run ends in the iteration state reached after some
`m ≤ maxit` completed iterations of the resolved configuration. -/
theorem PSO_ok_state (problem : Problem) (params0 : Params) (rng : RandSource)
    (sig : ℚ → ℚ) (st : SwarmState) (hok : PSO problem params0 rng sig = .ok st) :
    ∃ cfg m, build_cfg problem params0 rng sig = .ok cfg ∧ m ≤ cfg.maxit
      ∧ st = state_after cfg m := by
  cases hb : build_cfg problem params0 rng sig with
  | error e => rw [PSO_eq_of_error problem params0 rng sig e hb] at hok; simp at hok
  | ok cfg =>
    rw [PSO_eq_of_ok problem params0 rng sig cfg hb] at hok
    by_cases hbad : (cfg.n_part != 0
        && !np_uniform_valid cfg.varmin cfg.varmax cfg.varmin.length) = true
    · rw [if_pos hbad] at hok; simp at hok
    · rw [if_neg hbad] at hok
      simp only [Except.ok.injEq] at hok
      obtain ⟨m, h1, h2, h3⟩ := run_iters_reaches cfg cfg.maxit 0
      refine ⟨cfg, m, rfl, by omega, ?_⟩
      rw [← hok]
      rw [show init_state cfg = state_after cfg 0 from rfl]
      exact h3

/-! ## C4 -/

/-- C4: for every successful run, the recorded `best_costs` trace is
non-increasing up to the last completed iteration:
`best_costs[k+1] ≤ best_costs[k]` for every `k` with `k+1 ≤ completed`. -/
theorem C4_best_costs_monotone (problem : Problem) (params0 : Params) (rng : RandSource)
    (sig : ℚ → ℚ) (st : SwarmState) (hok : PSO problem params0 rng sig = .ok st)
    (k : ℕ) (hk : k + 1 ≤ st.completed) :
    leOpt (st.best_costs.getD (k + 1) none) (st.best_costs.getD k none) = true := by
  obtain ⟨cfg, m, -, hm, rfl⟩ := PSO_ok_state problem params0 rng sig st hok
  rw [state_after_completed] at hk
  rw [state_after_bc_entry cfg m hm (k + 1) (by omega),
    state_after_bc_entry cfg m hm k (by omega)]
  exact state_after_gb_le cfg k

/-- Problem for the concrete C4 run. -/
def probC4 : Problem := ⟨fun _ => 0, [0], [1]⟩

/-- Params for the concrete C4 run. -/
def prmsC4 : Params := { maxit := some 1, n_part := some 1, con := some 1 }

/-- Final state of the concrete C4 run. -/
def stC4 : SwarmState :=
  match PSO probC4 prmsC4 zeroRng (fun x => x) with
  | .ok st => st
  | .error _ => ⟨[], none, [], 0, [], 0⟩

/-- C4 witness: the concrete one-iteration run. -/
theorem C4_best_costs_monotone_witness :
    leOpt (stC4.best_costs.getD 1 none) (stC4.best_costs.getD 0 none) = true :=
  C4_best_costs_monotone probC4 prmsC4 zeroRng (fun x => x) stC4 rfl 0 (by decide)

/-! ## C5 -/

/-- The global-best invariant: `gbest_value` is a lower bound of all
particles' personal bests and (for a nonempty swarm) is attained by one of
them — i.e. it is the minimum of the personal best values. -/
def GbestInv (st : SwarmState) : Prop :=
  (∀ p ∈ st.particles, leOpt st.gbest_value p.pbest_value = true)
  ∧ (st.particles ≠ [] → ∃ p ∈ st.particles, st.gbest_value = p.pbest_value)

theorem gbest_inv_init (cfg : Cfg) : GbestInv (init_state cfg) := by
  constructor
  · intro p hp
    rw [init_state_gbv]
    exact init_particles_ub cfg cfg.n_part 0 (none, []) p
      (by rw [← init_state_particles]; exact hp)
  · intro hne
    cases hn : cfg.n_part with
    | zero =>
      exfalso
      apply hne
      rw [init_state_particles, hn, init_particles_zero]
    | succ m =>
      rw [init_state_particles, init_state_gbv, hn]
      exact init_particles_att_of_none cfg m 0 (none, []) rfl

theorem gbest_inv_step (cfg : Cfg) (it : ℕ) (st : SwarmState) (h : GbestInv st) :
    GbestInv (one_iteration cfg it st) := by
  obtain ⟨h1, h2⟩ := h
  constructor
  · intro p hp
    rw [one_iteration_gbv]
    refine particles_pass_ub cfg st.w it st.particles 0 (st.gbest_value, st.gbest_position)
      h1 p ?_
    rw [← one_iteration_particles]
    exact hp
  · intro hne
    have hne' : st.particles ≠ [] := by
      intro h0
      apply hne
      rw [one_iteration_particles, h0, particles_pass_nil]
    obtain ⟨q, hq, he⟩ := h2 hne'
    rw [one_iteration_particles, one_iteration_gbv]
    exact particles_pass_att cfg st.w it st.particles 0 (st.gbest_value, st.gbest_position)
      ⟨q, hq, he⟩

/-- C5: at the end of every iteration (`k = 0` being the initialisation),
the global best value is a lower bound of every particle's personal best
value, and for a nonempty swarm it equals one of them — it is the minimum of
the personal bests observed so far. -/
theorem C5_gbest_is_min (cfg : Cfg) (k : ℕ) : GbestInv (state_after cfg k) := by
  induction k with
  | zero => exact gbest_inv_init cfg
  | succ n ih => exact gbest_inv_step cfg n (state_after cfg n) ih

/-- Configuration for the concrete C5 witness. -/
def cfgC5 : Cfg :=
  { cost := fun _ => 0, varmin := [0], varmax := [1], con := 1, w0 := 1, wdamp := 1,
    c1 := 41/20, c2 := 41/20, min_velocity := [-(1/5)], max_velocity := [1/5], BPSO := 0,
    early_stopping := 0, rounds := 10, maxit := 1, n_part := 1, sig := fun x => x,
    rng := zeroRng }

/-- C5 witness: the invariant at the end of the first iteration of a
concrete run. -/
theorem C5_gbest_is_min_witness : GbestInv (state_after cfgC5 1) :=
  C5_gbest_is_min cfgC5 1

/-! ## C7: early stopping under a constant cost function -/

theorem ltOpt_irrefl (a : ℚ) : ¬ ltOpt a (some a) = true := by simp [ltOpt]

theorem absDiffLt_self (a : ℚ) : absDiffLt (some a) (some a) = true := by
  simp [absDiffLt]

/-- With a constant cost, a particle whose personal best is already the
constant is not improved, and the global best is untouched. -/
theorem particle_step_const (cfg : Cfg) (c0 : ℚ) (w : ℚ) (it idx : ℕ)
    (gb : Option ℚ × List ℚ) (p : Particle) (hcost : cfg.cost = fun _ => c0)
    (hpb : p.pbest_value = some c0) :
    particle_step cfg w it idx gb p = (moved cfg w it idx gb p, gb) := by
  rw [particle_step_eq]
  have hc : cfg.cost (moved cfg w it idx gb p).position = c0 := by rw [hcost]
  have hpb2 : (moved cfg w it idx gb p).pbest_value = some c0 := by
    rw [moved_pbest_value]; exact hpb
  unfold best_update
  rw [hc, hpb2, if_neg (ltOpt_irrefl c0)]

theorem particles_pass_const (cfg : Cfg) (c0 : ℚ) (w : ℚ) (it : ℕ)
    (hcost : cfg.cost = fun _ => c0) :
    ∀ (ps : List Particle) (idx : ℕ) (gb : Option ℚ × List ℚ),
      (∀ q ∈ ps, q.pbest_value = some c0) →
      (particles_pass cfg w it idx gb ps).2 = gb
      ∧ ∀ q ∈ (particles_pass cfg w it idx gb ps).1, q.pbest_value = some c0 := by
  intro ps
  induction ps with
  | nil => intro idx gb _; exact ⟨rfl, by simp [particles_pass_nil]⟩
  | cons p rest ih =>
    intro idx gb hps
    have hstep := particle_step_const cfg c0 w it idx gb p hcost
      (hps p (List.mem_cons_self p rest))
    have hrest := ih (idx + 1) (particle_step cfg w it idx gb p).2
      (fun q hq => hps q (List.mem_cons_of_mem p hq))
    rw [particles_pass_cons]
    constructor
    · rw [hrest.1, hstep]
    · intro q hq
      rcases List.mem_cons.mp hq with rfl | hq'
      · rw [hstep]
        rw [moved_pbest_value]
        exact hps p (List.mem_cons_self p rest)
      · exact hrest.2 q hq'

/-- Invariant of a constant-cost run: global best is the constant and so is
every personal best. -/
def ConstInv (c0 : ℚ) (st : SwarmState) : Prop :=
  st.gbest_value = some c0 ∧ ∀ q ∈ st.particles, q.pbest_value = some c0

theorem init_particles_const (cfg : Cfg) (c0 : ℚ) (hcost : cfg.cost = fun _ => c0) :
    ∀ (n idx : ℕ) (gb : Option ℚ × List ℚ), gb.1 = some c0 →
      (init_particles cfg idx gb n).2.1 = some c0
      ∧ ∀ q ∈ (init_particles cfg idx gb n).1, q.pbest_value = some c0 := by
  intro n
  induction n with
  | zero => intro idx gb hg; exact ⟨hg, by simp [init_particles_zero]⟩
  | succ m ih =>
    intro idx gb hg
    have hc : cfg.cost (init_p cfg idx).position = c0 := by rw [hcost]
    have hnext : init_gb_next cfg idx gb = gb := by
      unfold init_gb_next
      rw [hc, hg, if_neg (ltOpt_irrefl c0)]
    rw [init_particles_succ, hnext]
    refine ⟨(ih (idx + 1) gb hg).1, ?_⟩
    intro q hq
    rcases List.mem_cons.mp hq with rfl | hq'
    · rw [init_p_pbest, hc]
    · exact (ih (idx + 1) gb hg).2 q hq'

theorem const_inv_init (cfg : Cfg) (c0 : ℚ) (hcost : cfg.cost = fun _ => c0)
    (hn : 1 ≤ cfg.n_part) : ConstInv c0 (init_state cfg) := by
  obtain ⟨m, hm⟩ : ∃ m, cfg.n_part = m + 1 := ⟨cfg.n_part - 1, by omega⟩
  have hc : cfg.cost (init_p cfg 0).position = c0 := by rw [hcost]
  have hfirst : init_gb_next cfg 0 (none, []) = (some c0, (init_p cfg 0).pbest_position) := by
    unfold init_gb_next
    rw [hc]
    rfl
  have hrest := init_particles_const cfg c0 hcost m 1 (init_gb_next cfg 0 (none, []))
    (by rw [hfirst])
  constructor
  · rw [init_state_gbv, hm, init_particles_succ]
    exact hrest.1
  · intro q hq
    rw [init_state_particles, hm, init_particles_succ] at hq
    rcases List.mem_cons.mp hq with rfl | hq'
    · rw [init_p_pbest, hc]
    · exact hrest.2 q hq'

theorem const_inv_step (cfg : Cfg) (c0 : ℚ) (it : ℕ) (st : SwarmState)
    (hcost : cfg.cost = fun _ => c0) (h : ConstInv c0 st) :
    ConstInv c0 (one_iteration cfg it st)
    ∧ (one_iteration cfg it st).best_costs = st.best_costs.set (it + 1) (some c0) := by
  obtain ⟨hg, hp⟩ := h
  have hpass := particles_pass_const cfg c0 st.w it hcost st.particles 0
    (st.gbest_value, st.gbest_position) hp
  refine ⟨⟨?_, ?_⟩, ?_⟩
  · rw [one_iteration_gbv, hpass.1]
    exact hg
  · intro q hq
    rw [one_iteration_particles] at hq
    exact hpass.2 q hq
  · rw [one_iteration_bc, hpass.1]
    exact congrArg (st.best_costs.set (it + 1)) hg

theorem const_inv_state_after (cfg : Cfg) (c0 : ℚ) (hcost : cfg.cost = fun _ => c0)
    (hn : 1 ≤ cfg.n_part) : ∀ k, ConstInv c0 (state_after cfg k) := by
  intro k
  induction k with
  | zero => exact const_inv_init cfg c0 hcost hn
  | succ n ih =>
    rw [state_after_succ]
    exact (const_inv_step cfg c0 n (state_after cfg n) hcost ih).1

theorem stop_check_false_of_le (cfg : Cfg) (it : ℕ) (st : SwarmState)
    (h : ¬ cfg.rounds < it) : stop_check cfg it st = false := by
  simp [stop_check, h]

theorem stop_check_true6 (cfg : Cfg) (c0 : ℚ) (hcost : cfg.cost = fun _ => c0)
    (hn : 1 ≤ cfg.n_part) (hes : cfg.early_stopping = 1) (hr : cfg.rounds = 5)
    (hM : 7 ≤ cfg.maxit) : stop_check cfg 6 (state_after cfg 7) = true := by
  have hinv := const_inv_state_after cfg c0 hcost hn
  have hb7 : (state_after cfg 7).best_costs.getD (6 + 1) none = some c0 := by
    rw [state_after_bc_entry cfg 7 hM (6 + 1) (by omega)]
    exact (hinv (6 + 1)).1
  have hb2 : (state_after cfg 7).best_costs.getD (6 + 1 - 5) none = some c0 := by
    rw [state_after_bc_entry cfg 7 hM (6 + 1 - 5) (by omega)]
    exact (hinv (6 + 1 - 5)).1
  unfold stop_check
  rw [hes, hr, hb7, hb2, absDiffLt_self]
  rfl

theorem run_iters_const (cfg : Cfg) (c0 : ℚ) (hcost : cfg.cost = fun _ => c0)
    (hn : 1 ≤ cfg.n_part) (hes : cfg.early_stopping = 1) (hr : cfg.rounds = 5)
    (hM : 7 ≤ cfg.maxit) :
    ∀ (fuel it : ℕ), it ≤ 6 → 7 - it ≤ fuel →
      run_iters cfg it fuel (state_after cfg it) = state_after cfg 7 := by
  intro fuel
  induction fuel with
  | zero => intro it h1 h2; omega
  | succ f ih =>
    intro it h1 h2
    rw [run_iters_succ,
      show one_iteration cfg it (state_after cfg it) = state_after cfg (it + 1) from rfl]
    by_cases h6 : it = 6
    · subst h6
      rw [if_pos (stop_check_true6 cfg c0 hcost hn hes hr hM)]
    · have hsf : stop_check cfg it (state_after cfg (it + 1)) = false :=
        stop_check_false_of_le cfg it (state_after cfg (it + 1)) (by omega)
      rw [if_neg (by rw [hsf]; simp)]
      exact ih (it + 1) (by omega) (by omega)

/-- Entries of `best_costs` beyond the completed iterations keep their
`np.zeros` initial value. -/
theorem state_after_bc_untouched (cfg : Cfg) :
    ∀ k j, k < j → j ≤ cfg.maxit → (state_after cfg k).best_costs.getD j none = some 0 := by
  intro k
  induction k with
  | zero =>
    intro j h1 h2
    rw [state_after_zero, init_state_bc, getD_set_ne _ 0 j _ none (by omega),
      getD_replicate _ j _ none (by omega)]
  | succ n ih =>
    intro j h1 h2
    rw [state_after_succ, one_iteration_bc, getD_set_ne _ (n + 1) j _ none (by omega)]
    exact ih j (by omega) h2

/-- The resolved configuration's fields of a successful `build_cfg`. -/
theorem build_cfg_ok_fields (problem : Problem) (params0 : Params) (rng : RandSource)
    (sig : ℚ → ℚ) (cfg : Cfg) (hb : build_cfg problem params0 rng sig = .ok cfg) :
    cfg.cost = problem.cost_function
    ∧ cfg.early_stopping = (default_PSO_params params0).early_stopping.getD 0
    ∧ cfg.rounds = (default_PSO_params params0).early_stopping_rounds.getD 10
    ∧ cfg.maxit = (default_PSO_params params0).maxit.getD 30
    ∧ cfg.n_part = (default_PSO_params params0).n_part.getD 15 := by
  cases hc : (default_PSO_params params0).con with
  | none => rw [build_cfg] at hb; rw [hc] at hb; simp at hb
  | some c =>
    cases hv : (default_PSO_params params0).velocity_limit_scale with
    | none => rw [build_cfg] at hb; rw [hc, hv] at hb; simp at hb
    | some v =>
      cases hs : npSub problem.varmax problem.varmin with
      | none => rw [build_cfg] at hb; rw [hc, hv, hs] at hb; simp at hb
      | some range =>
        rw [build_cfg] at hb; rw [hc, hv, hs] at hb
        simp only [Except.ok.injEq] at hb
        subst hb
        exact ⟨rfl, rfl, rfl, rfl, rfl⟩

/-- C7: if early stopping is enabled with `early_stopping_rounds = 5` and the
cost function is constant, a successful run with `maxit ≥ 7` terminates at
iteration 6 (so 7 completed iterations — before `maxit` whenever
`maxit > 7`), returning the current global best; `best_costs` keeps its full
`maxit+1` length, and every entry beyond the stopping point keeps its
initialised zero.  The last conjunct is the general rule: whenever the
early-stopping test fires after an iteration, the loop returns that
iteration's state immediately. -/
theorem C7_early_stopping (problem : Problem) (params0 : Params) (rng : RandSource)
    (sig : ℚ → ℚ) (c0 : ℚ) (M N : ℕ)
    (hcost : problem.cost_function = fun _ => c0)
    (hes : params0.early_stopping = some 1)
    (hr : params0.early_stopping_rounds = some 5)
    (hmx : params0.maxit = some M) (hM : 7 ≤ M)
    (hnp : params0.n_part = some N) (hN : 1 ≤ N)
    (st : SwarmState) (hok : PSO problem params0 rng sig = .ok st) :
    st.completed = 7 ∧ st.best_costs.length = M + 1 ∧ st.gbest_value = some c0
    ∧ (∀ k, 8 ≤ k → k ≤ M → st.best_costs.getD k none = some 0)
    ∧ (7 < M → st.completed < M)
    ∧ (∀ (cfg' : Cfg) (it fuel : ℕ) (st' : SwarmState),
        stop_check cfg' it (one_iteration cfg' it st') = true →
        run_iters cfg' it (fuel + 1) st' = one_iteration cfg' it st') := by
  cases hb : build_cfg problem params0 rng sig with
  | error e => rw [PSO_eq_of_error problem params0 rng sig e hb] at hok; simp at hok
  | ok cfg =>
    rw [PSO_eq_of_ok problem params0 rng sig cfg hb] at hok
    by_cases hbad : (cfg.n_part != 0
        && !np_uniform_valid cfg.varmin cfg.varmax cfg.varmin.length) = true
    · rw [if_pos hbad] at hok; simp at hok
    rw [if_neg hbad] at hok
    simp only [Except.ok.injEq] at hok
    obtain ⟨hcostf, hesf, hrf, hmxf, hnpf⟩ :=
      build_cfg_ok_fields problem params0 rng sig cfg hb
    have hcost' : cfg.cost = fun _ => c0 := by rw [hcostf, hcost]
    have hes' : cfg.early_stopping = 1 := by rw [hesf]; simp [default_PSO_params, hes]
    have hr' : cfg.rounds = 5 := by rw [hrf]; simp [default_PSO_params, hr]
    have hmx' : cfg.maxit = M := by rw [hmxf]; simp [default_PSO_params, hmx]
    have hnp' : cfg.n_part = N := by rw [hnpf]; simp [default_PSO_params, hnp]
    have hM' : 7 ≤ cfg.maxit := by omega
    have hN' : 1 ≤ cfg.n_part := by omega
    have hrun : run_iters cfg 0 cfg.maxit (init_state cfg) = state_after cfg 7 := by
      rw [show init_state cfg = state_after cfg 0 from rfl]
      exact run_iters_const cfg c0 hcost' hN' hes' hr' hM' cfg.maxit 0 (by omega) (by omega)
    have hst : st = state_after cfg 7 := by rw [← hok, hrun]
    subst hst
    have hinv := const_inv_state_after cfg c0 hcost' hN' 7
    refine ⟨state_after_completed cfg 7, ?_, hinv.1, ?_, ?_, ?_⟩
    · rw [state_after_bc_length, hmx']
    · intro k h8 hkM
      exact state_after_bc_untouched cfg 7 k (by omega) (by omega)
    · intro h
      rw [state_after_completed]
      omega
    · intro cfg' it fuel st' hstop
      rw [run_iters_succ, if_pos hstop]

/-- Problem for the concrete C7 run: constant cost 0. -/
def probC7 : Problem := ⟨fun _ => 0, [0], [1]⟩

/-- Params for the concrete C7 run. -/
def prmsC7 : Params :=
  { maxit := some 8, n_part := some 1, con := some 1, early_stopping := some 1,
    early_stopping_rounds := some 5 }

/-- Final state of the concrete C7 run. -/
def stC7 : SwarmState :=
  match PSO probC7 prmsC7 zeroRng (fun x => x) with
  | .ok st => st
  | .error _ => ⟨[], none, [], 0, [], 0⟩

/-- C7 witness: the concrete constant-cost run with `maxit = 8` stops after
7 completed iterations and leaves `best_costs[8]` at its initial zero. -/
theorem C7_early_stopping_witness :
    stC7.completed = 7 ∧ stC7.best_costs.getD 8 none = some 0 := by
  have h := C7_early_stopping probC7 prmsC7 zeroRng (fun x => x) 0 8 1
    rfl rfl rfl rfl (by norm_num) rfl (by norm_num) stC7 rfl
  exact ⟨h.1, h.2.2.2.1 8 (by norm_num) (by norm_num)⟩

/-! ## C9: reference semantics of the recorded global-best position

To talk about aliasing we re-embed the loop body with an explicit heap:
numpy arrays live in a `Store`, fields hold references (indices), numpy
operations allocate fresh arrays, and the assignments of PSO.py lines 199
(`particle.pbest_position = particle.position`) and 202
(`gbest_position = particle.pbest_position`) copy references. -/

/-- A heap of numpy arrays; a reference is an index into it. -/
abbrev Store := List (List ℚ)

/-- A particle whose array fields are references into the store. -/
structure ParticleRef where
  position : ℕ
  velocity : ℕ
  pbest_position : ℕ
  pbest_value : Option ℚ
deriving DecidableEq

/-- Dereference an array. -/
def readArr (σ : Store) (r : ℕ) : List ℚ := σ.getD r []

/-- `update_velocity` under reference semantics (PSO.py lines 63-69): the
numpy expressions compute a fresh array from the referenced ones, and
`self.velocity = ...` rebinds the field to the fresh reference. -/
def update_velocity_ref (σ : Store) (p : ParticleRef) (con w c1 c2 r1 r2 : ℚ)
    (gb : ℕ) (minv maxv : List ℚ) : Store × ParticleRef :=
  let raw := vel_formula con w c1 c2 r1 r2 (readArr σ p.velocity)
    (readArr σ p.pbest_position) (readArr σ p.position) (readArr σ gb)
  let v := List.zipWith min (List.zipWith max raw minv) maxv
  (σ ++ [v], { p with velocity := σ.length })

/-- `update_position` under reference semantics (PSO.py lines 71-79): both
branches allocate a fresh array and rebind `self.position`. -/
def update_position_ref (σ : Store) (p : ParticleRef) (varmin varmax : List ℚ)
    (BPSO : ℕ) (sig : ℚ → ℚ) (bin : List ℚ) : Store × ParticleRef :=
  if BPSO = 0 then
    let s1 := List.zipWith (· + ·) (readArr σ p.position) (readArr σ p.velocity)
    let s2 := List.zipWith max s1 varmin
    let s3 := List.zipWith min s2 varmax
    (σ ++ [s3], { p with position := σ.length })
  else
    let sv := (readArr σ p.velocity).map sig
    let pos := (List.range sv.length).map
      (fun i => if bin.getD i 0 < sv.getD i 0 then (1 : ℚ) else 0)
    (σ ++ [pos], { p with position := σ.length })

/-- The loop body for one particle under reference semantics (PSO.py lines
188-202), with the global best as `(value, reference)`.  Lines 199 and 202
copy references, not arrays. -/
def particle_step_ref (σ : Store) (cost : List ℚ → ℚ) (con w c1 c2 r1 r2 : ℚ)
    (varmin varmax minv maxv : List ℚ) (BPSO : ℕ) (sig : ℚ → ℚ) (bin : List ℚ)
    (gb : Option ℚ × ℕ) (p : ParticleRef) : Store × ParticleRef × (Option ℚ × ℕ) :=
  let rv := update_velocity_ref σ p con w c1 c2 r1 r2 gb.2 minv maxv
  let rp := update_position_ref rv.1 rv.2 varmin varmax BPSO sig bin
  let c := cost (readArr rp.1 rp.2.position)
  (rp.1,
    if ltOpt c rp.2.pbest_value then
      let p3 := { rp.2 with pbest_value := some c, pbest_position := rp.2.position }
      if ltOpt c gb.1 then (p3, (some c, p3.pbest_position)) else (p3, gb)
    else (rp.2, gb))

/-- C9 counterexample: in a step whose new cost improves the global best
(cost 0 against personal best 10 and global best 5), the recorded
global-best position is the SAME reference as the particle's
`pbest_position` (which in turn is the particle's `position` reference) —
an alias, not an independent copy. -/
theorem C9_gbest_alias_cex :
    ((particle_step_ref [[0], [0], [0], [1]] (fun _ => 0) 1 1 1 1 0 0 [0] [1] [-1] [1] 0
        (fun x => x) [] (some 5, 3) ⟨0, 1, 2, some 10⟩).2.2.2
      = (particle_step_ref [[0], [0], [0], [1]] (fun _ => 0) 1 1 1 1 0 0 [0] [1] [-1] [1] 0
        (fun x => x) [] (some 5, 3) ⟨0, 1, 2, some 10⟩).2.1.pbest_position)
    ∧ ((particle_step_ref [[0], [0], [0], [1]] (fun _ => 0) 1 1 1 1 0 0 [0] [1] [-1] [1] 0
        (fun x => x) [] (some 5, 3) ⟨0, 1, 2, some 10⟩).2.2.1 = some 0) := ⟨rfl, rfl⟩

theorem readArr_append (σ : Store) (a : List ℚ) (i : ℕ) (hi : i < σ.length) :
    readArr (σ ++ [a]) i = readArr σ i := by
  unfold readArr
  rw [List.getD_eq_getElem?_getD, List.getD_eq_getElem?_getD,
    List.getElem?_append_left hi]

theorem update_velocity_ref_store (σ : Store) (p : ParticleRef) (con w c1 c2 r1 r2 : ℚ)
    (gb : ℕ) (minv maxv : List ℚ) :
    ∃ a, (update_velocity_ref σ p con w c1 c2 r1 r2 gb minv maxv).1 = σ ++ [a] :=
  ⟨_, rfl⟩

theorem update_position_ref_store (σ : Store) (p : ParticleRef) (varmin varmax : List ℚ)
    (BPSO : ℕ) (sig : ℚ → ℚ) (bin : List ℚ) :
    ∃ a, (update_position_ref σ p varmin varmax BPSO sig bin).1 = σ ++ [a] := by
  unfold update_position_ref
  split
  · exact ⟨_, rfl⟩
  · exact ⟨_, rfl⟩

theorem particle_step_ref_store (σ : Store) (cost : List ℚ → ℚ) (con w c1 c2 r1 r2 : ℚ)
    (varmin varmax minv maxv : List ℚ) (BPSO : ℕ) (sig : ℚ → ℚ) (bin : List ℚ)
    (gb : Option ℚ × ℕ) (p : ParticleRef) :
    (particle_step_ref σ cost con w c1 c2 r1 r2 varmin varmax minv maxv BPSO sig bin gb p).1
      = (update_position_ref (update_velocity_ref σ p con w c1 c2 r1 r2 gb.2 minv maxv).1
          (update_velocity_ref σ p con w c1 c2 r1 r2 gb.2 minv maxv).2 varmin varmax BPSO
          sig bin).1 := rfl

/-- C9 amended: the loop body never mutates an existing array in the store —
it only allocates.  Hence the array value behind any previously recorded
global-best reference (and any other live reference) is unchanged by a
particle's subsequent velocity/position/personal-best updates, even though
the recorded global-best position is an alias, not a copy. -/
theorem C9_no_inplace_mutation (σ : Store) (cost : List ℚ → ℚ) (con w c1 c2 r1 r2 : ℚ)
    (varmin varmax minv maxv : List ℚ) (BPSO : ℕ) (sig : ℚ → ℚ) (bin : List ℚ)
    (gb : Option ℚ × ℕ) (p : ParticleRef) (g : ℕ) (hg : g < σ.length) :
    readArr (particle_step_ref σ cost con w c1 c2 r1 r2 varmin varmax minv maxv BPSO sig
        bin gb p).1 g = readArr σ g := by
  rw [particle_step_ref_store]
  obtain ⟨a, ha⟩ := update_velocity_ref_store σ p con w c1 c2 r1 r2 gb.2 minv maxv
  obtain ⟨b, hb⟩ := update_position_ref_store
    (update_velocity_ref σ p con w c1 c2 r1 r2 gb.2 minv maxv).1
    (update_velocity_ref σ p con w c1 c2 r1 r2 gb.2 minv maxv).2 varmin varmax BPSO sig bin
  rw [hb, ha]
  rw [readArr_append (σ ++ [a]) b g (by rw [List.length_append]; simp; omega)]
  rw [readArr_append σ a g hg]

/-- C9 witness: a concrete store cell (the one a global best could have
recorded) is unchanged by a subsequent particle step. -/
theorem C9_no_inplace_mutation_witness :
    readArr (particle_step_ref [[0], [0], [0], [1]] (fun _ => 0) 1 1 1 1 0 0 [0] [1] [-1]
        [1] 0 (fun x => x) [] (some 5, 3) ⟨0, 1, 2, some 10⟩).1 2
      = readArr [[0], [0], [0], [1]] 2 :=
  C9_no_inplace_mutation [[0], [0], [0], [1]] (fun _ => 0) 1 1 1 1 0 0 [0] [1] [-1] [1] 0
    (fun x => x) [] (some 5, 3) ⟨0, 1, 2, some 10⟩ 2 (by decide)

end PSOModel
